import Mathlib

/-!
Shallow embedding of the extraction and scope-filtering engine of
`src/index.js`: the two lexical extractors driven by `regex.url` and
`regex.path`, the `inScope` predicate, and the per-response aggregator
(`handleURL`, `handlePath`, the `page.on('response')` handler), together
with proofs of the specified properties.

Strings are modelled as Lean `String`/`List Char`; the JavaScript regex
semantics (leftmost match, lazy quantifiers, lookahead, backreference,
`exec` with the `g` flag advancing `lastIndex` past each match) are
translated into explicit scanning functions.
-/

namespace Sourcery

/-- The single-quote character `'` (code point 39), used by `regex.path`. -/
def squote : Char := Char.ofNat 39

/-- JavaScript `\s` character class: the WhiteSpace and LineTerminator
code points matched by `\s` in a JS regular expression. -/
def jsWhitespace (c : Char) : Bool :=
  c.toNat = 32 || c.toNat = 9 || c.toNat = 10 || c.toNat = 13 ||
  c.toNat = 11 || c.toNat = 12 || c.toNat = 160 || c.toNat = 5760 ||
  (8192 ≤ c.toNat && c.toNat ≤ 8202) || c.toNat = 8232 ||
  c.toNat = 8233 || c.toNat = 8239 || c.toNat = 8287 ||
  c.toNat = 12288 || c.toNat = 65279

/-- The negated character class `[^\s,'"|()<>[\]]` of `regex.url`:
`isUrlDelim c = true` exactly when `c` is excluded from a URL match
(and, equally, when `c` satisfies the class `[\s,'"|()<>[\]]` of the
lookahead). -/
def isUrlDelim (c : Char) : Bool :=
  jsWhitespace c || c == ',' || c == squote || c == '"' || c == '|' ||
  c == '(' || c == ')' || c == '<' || c == '>' || c == '[' || c == ']'

/-- The characters of `http://`. -/
def schemeHttp : List Char := ['h', 't', 't', 'p', ':', '/', '/']

/-- The characters of `https://`. -/
def schemeHttps : List Char := ['h', 't', 't', 'p', 's', ':', '/', '/']

/-- Match `https?:\/\/` at the head of `s`, returning the scheme
characters consumed and the remainder.  At any given position at most
one of the two alternatives of `https?` can succeed, so the greedy
`s?` is equivalent to this two-way test. -/
def stripScheme (s : List Char) : Option (List Char × List Char) :=
  if schemeHttps.isPrefixOf s then some (schemeHttps, s.drop 8)
  else if schemeHttp.isPrefixOf s then some (schemeHttp, s.drop 7)
  else none

/-- Does `s` begin with `http://` or `https://`?  (The first alternative
of the lookahead `(?=https?:\/\/|[\s,'"|()<>[\]])`.) -/
def schemeAhead (s : List Char) : Bool :=
  schemeHttps.isPrefixOf s || schemeHttp.isPrefixOf s

/-- The lookahead `(?=https?:\/\/|[\s,'"|()<>[\]])` of `regex.url`,
tested at the position just after the lazily consumed body. -/
def lookaheadOk (s : List Char) : Bool :=
  schemeAhead s ||
    match s with
    | c :: _ => isUrlDelim c
    | [] => false

/-- The lazy quantifier `[^\s,'"|()<>[\]]+?` of `regex.url` followed by
the lookahead: consume at least one non-delimiter character, as few as
possible, stopping at the first position where the lookahead holds.
Returns the consumed characters and the (non-consumed) remainder, or
`none` when the end of input is reached without the lookahead holding
(the lookahead is mandatory: end of input does not terminate a match). -/
def lazyConsume : List Char → Option (List Char × List Char)
  | [] => none
  | c :: rest =>
    if isUrlDelim c then none
    else if lookaheadOk rest then some ([c], rest)
    else
      match lazyConsume rest with
      | some (cs, r) => some (c :: cs, r)
      | none => none

/-- One attempt of `regex.url` anchored at the head of `s`: capture
group 1 (scheme plus lazily matched body) and the remainder after the
match (the lookahead consumes nothing, so `exec` resumes there). -/
def matchUrlAt (s : List Char) : Option (List Char × List Char) :=
  match stripScheme s with
  | none => none
  | some (sch, rest) =>
    match lazyConsume rest with
    | none => none
    | some (body, r) => some (sch ++ body, r)

/-- The `while ((match = regex.exec(string)))` loop of `matchAll` for
`regex.url`: try a match at each position from left to right; on
success emit capture group 1 and resume after the match, on failure
advance one character.  `fuel` bounds the recursion; every step
consumes at least one character, so `fuel = s.length` is exact. -/
def extractUrlsAux (fuel : Nat) (s : List Char) : List (List Char) :=
  match fuel, s with
  | 0, _ => []
  | _, [] => []
  | fuel + 1, c :: rest =>
    match matchUrlAt (c :: rest) with
    | some (m, r) => m :: extractUrlsAux fuel r
    | none => extractUrlsAux fuel rest

/-- All capture-group-1 matches of `regex.url` over `s`, in order. -/
def extractUrlsL (s : List Char) : List (List Char) :=
  extractUrlsAux s.length s

/-- String-level wrapper for `extractUrlsL`. -/
def extractUrls (s : String) : List String :=
  (extractUrlsL s.data).map String.mk

/-- JavaScript `\w` (equivalently `[A-Za-z0-9_]`). -/
def isWordChar (c : Char) : Bool :=
  (decide ('a' ≤ c) && decide (c ≤ 'z')) ||
  (decide ('A' ≤ c) && decide (c ≤ 'Z')) ||
  (decide ('0' ≤ c) && decide (c ≤ '9')) || c == '_'

/-- The character class `[\w\d?&=#.!:_-]` of `regex.path` (the allowed
first character after the leading `/`; note it does not contain `/`). -/
def pathClass1 (c : Char) : Bool :=
  isWordChar c || c == '?' || c == '&' || c == '=' || c == '#' ||
  c == '.' || c == '!' || c == ':' || c == '_' || c == '-'

/-- The character class `[\w\d?/&=#.!:_-]` of `regex.path`: the first
class plus `/`. -/
def pathClass2 (c : Char) : Bool :=
  pathClass1 c || c == '/'

/-- The lazy quantifier `[\w\d?/&=#.!:_-]*?` of `regex.path` followed by
the backreference `\1`: at each position, first try to close with the
opening quote `q`; otherwise consume one class-2 character and continue.
Returns the consumed characters (group content after the first two
characters) and the remainder after the closing quote. -/
def pathLazy (q : Char) : List Char → Option (List Char × List Char)
  | [] => none
  | c :: rest =>
    if c == q then some ([], rest)
    else if pathClass2 c then
      match pathLazy q rest with
      | some (cs, r) => some (c :: cs, r)
      | none => none
    else none

/-- One attempt of `regex.path` anchored at the head of `s`: group 1 is
a quote (`"` or `'`), group 2 is `/` followed by one class-1 character
and lazily as few class-2 characters as possible, closed by the same
quote via the backreference `\1`.  Returns group 2 and the remainder
after the closing quote. -/
def matchPathAt (s : List Char) : Option (List Char × List Char) :=
  match s with
  | q :: c1 :: c2 :: rest =>
    if (q == '"' || q == squote) && c1 == '/' && pathClass1 c2 then
      match pathLazy q rest with
      | some (cs, r) => some (c1 :: c2 :: cs, r)
      | none => none
    else none
  | _ => none

/-- The `exec` loop of `matchAll` for `regex.path`, emitting capture
group 2 of each match. -/
def extractPathsAux (fuel : Nat) (s : List Char) : List (List Char) :=
  match fuel, s with
  | 0, _ => []
  | _, [] => []
  | fuel + 1, c :: rest =>
    match matchPathAt (c :: rest) with
    | some (m, r) => m :: extractPathsAux fuel r
    | none => extractPathsAux fuel rest

/-- All capture-group-2 matches of `regex.path` over `s`, in order. -/
def extractPathsL (s : List Char) : List (List Char) :=
  extractPathsAux s.length s

/-- String-level wrapper for `extractPathsL`. -/
def extractPaths (s : String) : List String :=
  (extractPathsL s.data).map String.mk

/-- The result of the platform URL parser (`new URL(...)`), restricted
to the fields the engine reads: `hostname`, `href`, `pathname`. -/
structure URLRec where
  hostname : String
  href : String
  pathname : String
deriving DecidableEq

/-- One intercepted response event: `url` is `resp.url()`, `headers` is
the serialized header blob `JSON.stringify(resp.headers())`, and `body`
is the result of `await resp.text()` (`none` when it throws). -/
structure ResponseEvent where
  url : String
  headers : String
  body : Option String
deriving DecidableEq

/-- One emitted finding.  `subdomain h` is a line written to
`subdomains.txt`; `url h href` is a line `href` written to `urls.txt`
(the hostname of the parsed URL is recorded alongside so that scope
properties can be stated); `path source p` is the line
`source -> p` written to `paths.txt`. -/
inductive Finding where
  | subdomain (hostname : String)
  | url (hostname href : String)
  | path (source p : String)
deriving DecidableEq

/-- The `inScope` closure of `src/index.js` (lines 149–153):
`!subdomain.startsWith('*.') && domains.some(domain => subdomain ===
domain || subdomain.endsWith('.' + domain))`.  JS `startsWith`/`endsWith`
are modelled as prefix/suffix tests on the character sequence. -/
def inScope (domains : List String) (subdomain : String) : Bool :=
  !(['*', '.'].isPrefixOf subdomain.data) &&
    domains.any fun domain =>
      subdomain == domain || ('.' :: domain.data).isSuffixOf subdomain.data

/-- The `handleURL` closure (lines 159–168).  State is the
`uniqueDomains` set, modelled as the list of hostnames in insertion
order; the result pairs the updated state with the findings written, in
write order (the `subdomains.txt` line, when new, precedes the
`urls.txt` line). -/
def handleURL (domains : List String) (seen : List String) (u : URLRec) :
    List String × List Finding :=
  if inScope domains u.hostname then
    if seen.contains u.hostname then
      (seen, [Finding.url u.hostname u.href])
    else
      (seen ++ [u.hostname],
       [Finding.subdomain u.hostname, Finding.url u.hostname u.href])
  else (seen, [])

/-- The callback of `matchAll(regex.url, text, ([, url]) => ...)`
(lines 183–191 and 205–213) applied to each raw match in order: parse
the match with the platform parser `pu`; on failure skip it, on success
run `handleURL`. -/
def scanUrlsList (pu : String → Option URLRec) (domains : List String)
    (seen : List String) : List String → List String × List Finding
  | [] => (seen, [])
  | m :: ms =>
    match pu m with
    | none => scanUrlsList pu domains seen ms
    | some u =>
      let r1 := handleURL domains seen u
      let r2 := scanUrlsList pu domains r1.1 ms
      (r2.1, r1.2 ++ r2.2)

/-- `matchAll(regex.url, text, ...)` with the parse-then-`handleURL`
callback, over a text blob. -/
def scanUrls (pu : String → Option URLRec) (domains : List String)
    (seen : List String) (text : String) : List String × List Finding :=
  scanUrlsList pu domains seen (extractUrls text)

/-- Node's `path.parse(pathname).ext` (posix), as called on line 193.
This is platform library code, modelled by Node's documented algorithm:
take the basename (after stripping trailing slashes, the part after the
last `/`); the extension runs from the last `.` of the basename to its
end, except that there is no extension when the basename has no dot,
when its last dot is its first character, or when the basename is
exactly `..`. -/
def pathParseExt (pathname : String) : String :=
  let rev := pathname.data.reverse.dropWhile fun c => c == '/'
  let base := (rev.takeWhile fun c => !(c == '/')).reverse
  let pre := base.reverse.takeWhile fun c => !(c == '.')
  if pre.length = base.length then ""
  else if base.length - pre.length - 1 = 0 then ""
  else if base = ['.', '.'] then ""
  else String.mk (base.drop (base.length - pre.length - 1))

/-- The `page.on('response')` handler (lines 170–216), for one event.
`pu` is the platform URL parser (`new URL`), `domains` the root-domain
list, `exts` the extension filter (each entry lowercased and
dot-prefixed by the CLI layer).  Steps, in source order: parse the
response URL (failure aborts the event); `handleURL` on it; scan the
serialized headers for URLs; extension short-circuit
(`if (ext && !extensions.includes(ext)) return`); obtain the body text
(failure stops here); scan the body for URLs; then emit a path finding
`url.href -> p` for every path match in the body. -/
def handleResponse (pu : String → Option URLRec) (domains exts : List String)
    (seen : List String) (ev : ResponseEvent) : List String × List Finding :=
  match pu ev.url with
  | none => (seen, [])
  | some url =>
    let r1 := handleURL domains seen url
    let r2 := scanUrls pu domains r1.1 ev.headers
    let ext := pathParseExt url.pathname
    if !(ext == "") && !(exts.contains ext) then (r2.1, r1.2 ++ r2.2)
    else
      match ev.body with
      | none => (r2.1, r1.2 ++ r2.2)
      | some text =>
        let r3 := scanUrls pu domains r2.1 text
        let r4 := (extractPaths text).map fun p => Finding.path url.href p
        (r3.1, r1.2 ++ r2.2 ++ r3.2 ++ r4)

/-- A run over a sequence of response events, threading the
`uniqueDomains` state and concatenating the findings in emission
order (events are handled one at a time, in order; see §5 of the
specification). -/
def runAux (pu : String → Option URLRec) (domains exts : List String)
    (seen : List String) : List ResponseEvent → List String × List Finding
  | [] => (seen, [])
  | ev :: evs =>
    let r1 := handleResponse pu domains exts seen ev
    let r2 := runAux pu domains exts r1.1 evs
    (r2.1, r1.2 ++ r2.2)

/-- A whole run: `uniqueDomains` starts empty (line 137). -/
def runEvents (pu : String → Option URLRec) (domains exts : List String)
    (events : List ResponseEvent) : List String × List Finding :=
  runAux pu domains exts [] events

/-- The hostnames of the `SubdomainFinding`s of a finding list, in
emission order. -/
def subHosts (fs : List Finding) : List String :=
  fs.filterMap fun f =>
    match f with
    | Finding.subdomain h => some h
    | _ => none

/-- The in-scope requirement of §3 of the specification, per finding
variant: subdomain and URL findings carry an in-scope hostname.  (Path
findings carry no hostname of their own; see C1.) -/
def scopedFinding (domains : List String) : Finding → Prop
  | Finding.subdomain h => inScope domains h = true
  | Finding.url h _ => inScope domains h = true
  | Finding.path _ _ => True

/-- Relation between the `uniqueDomains` state before and after a
processing step that emitted `fs`: the state grows by exactly the
hostnames of the emitted `SubdomainFinding`s, those hostnames are
pairwise distinct, and none of them was already present. -/
def StepOK (seen seen' : List String) (fs : List Finding) : Prop :=
  seen' = seen ++ subHosts fs ∧ (subHosts fs).Nodup ∧
    ∀ h ∈ subHosts fs, h ∉ seen

theorem subHosts_append (f1 f2 : List Finding) :
    subHosts (f1 ++ f2) = subHosts f1 ++ subHosts f2 := by
  unfold subHosts
  exact List.filterMap_append f1 f2 _

theorem subHosts_map_path (src : String) (ps : List String) :
    subHosts (ps.map fun p => Finding.path src p) = [] := by
  induction ps with
  | nil => rfl
  | cons p ps ih =>
    unfold subHosts at ih ⊢
    simp [List.filterMap_cons, ih]

theorem mem_subHosts {h : String} {fs : List Finding} :
    h ∈ subHosts fs ↔ Finding.subdomain h ∈ fs := by
  unfold subHosts
  rw [List.mem_filterMap]
  constructor
  · rintro ⟨f, hf, he⟩
    cases f <;> simp_all
  · intro hf
    exact ⟨Finding.subdomain h, hf, rfl⟩

theorem count_subHosts (h : String) (fs : List Finding) :
    (subHosts fs).count h = fs.count (Finding.subdomain h) := by
  induction fs with
  | nil => rfl
  | cons f fs ih =>
    unfold subHosts at ih ⊢
    rw [List.filterMap_cons]
    cases f with
    | subdomain h' =>
      by_cases he : h' = h
      · subst he
        simp [List.count_cons, ih]
      · simp [List.count_cons, ih, he, Finding.subdomain.injEq]
    | url h' href => simp [List.count_cons, ih]
    | path s p => simp [List.count_cons, ih]

theorem StepOK.refl (seen : List String) : StepOK seen seen [] := by
  refine ⟨by simp [subHosts], by simp [subHosts], by simp [subHosts]⟩

theorem StepOK.comp {s s1 s2 : List String} {f1 f2 : List Finding}
    (h1 : StepOK s s1 f1) (h2 : StepOK s1 s2 f2) :
    StepOK s s2 (f1 ++ f2) := by
  obtain ⟨e1, n1, d1⟩ := h1
  obtain ⟨e2, n2, d2⟩ := h2
  refine ⟨?_, ?_, ?_⟩
  · rw [subHosts_append, e2, e1, List.append_assoc]
  · rw [subHosts_append]
    refine n1.append n2 ?_
    intro a ha1 ha2
    exact d2 a ha2 (e1 ▸ List.mem_append_right s ha1)
  · intro h hm hs
    rcases List.mem_append.1 (subHosts_append f1 f2 ▸ hm) with hm1 | hm2
    · exact d1 h hm1 hs
    · exact d2 h hm2 (e1 ▸ List.mem_append_left _ hs)

theorem handleURL_step (domains seen : List String) (u : URLRec) :
    StepOK seen (handleURL domains seen u).1 (handleURL domains seen u).2 := by
  unfold handleURL
  by_cases hs : inScope domains u.hostname
  · by_cases hc : seen.contains u.hostname
    · have hm : u.hostname ∈ seen := by simpa using hc
      simp [hs, hm, StepOK, subHosts]
    · have hm : u.hostname ∉ seen := by simpa using hc
      simp [hs, hm, StepOK, subHosts, List.filterMap_cons]
  · simp [hs, StepOK, subHosts]

theorem scanUrlsList_step (pu : String → Option URLRec)
    (domains seen : List String) (ms : List String) :
    StepOK seen (scanUrlsList pu domains seen ms).1
      (scanUrlsList pu domains seen ms).2 := by
  induction ms generalizing seen with
  | nil => exact StepOK.refl seen
  | cons m ms ih =>
    unfold scanUrlsList
    cases hp : pu m with
    | none => exact ih seen
    | some u =>
      simp only
      exact (handleURL_step domains seen u).comp (ih _)

theorem handleResponse_step (pu : String → Option URLRec)
    (domains exts seen : List String) (ev : ResponseEvent) :
    StepOK seen (handleResponse pu domains exts seen ev).1
      (handleResponse pu domains exts seen ev).2 := by
  unfold handleResponse
  cases hp : pu ev.url with
  | none => exact StepOK.refl seen
  | some url =>
    simp only
    have s1 := handleURL_step domains seen url
    have s2 := scanUrlsList_step pu domains (handleURL domains seen url).1
      (extractUrls ev.headers)
    split
    · exact s1.comp s2
    · cases ev.body with
      | none => exact s1.comp s2
      | some text =>
        simp only
        have s3 := scanUrlsList_step pu domains
          (scanUrls pu domains (handleURL domains seen url).1 ev.headers).1
          (extractUrls text)
        have s4 : StepOK (scanUrls pu domains
            (scanUrls pu domains (handleURL domains seen url).1 ev.headers).1
              text).1
            (scanUrls pu domains
            (scanUrls pu domains (handleURL domains seen url).1 ev.headers).1
              text).1
            ((extractPaths text).map fun p => Finding.path url.href p) := by
          refine ⟨?_, ?_, ?_⟩ <;> simp [subHosts_map_path]
        exact ((s1.comp s2).comp s3).comp s4

theorem handleURL_scoped (domains seen : List String) (u : URLRec) :
    ∀ f ∈ (handleURL domains seen u).2, scopedFinding domains f := by
  intro f hf
  unfold handleURL at hf
  by_cases hs : inScope domains u.hostname
  · by_cases hc : u.hostname ∈ seen
    · simp [hs, hc] at hf
      simp [hf, scopedFinding, hs]
    · simp [hs, hc] at hf
      rcases hf with h | h <;> simp [h, scopedFinding, hs]
  · simp [hs] at hf

theorem handleURL_no_path (domains seen : List String) (u : URLRec) :
    ∀ f ∈ (handleURL domains seen u).2, ∀ s p, f ≠ Finding.path s p := by
  intro f hf
  unfold handleURL at hf
  by_cases hs : inScope domains u.hostname
  · by_cases hc : u.hostname ∈ seen
    · simp [hs, hc] at hf
      simp [hf]
    · simp [hs, hc] at hf
      rcases hf with h | h <;> simp [h]
  · simp [hs] at hf

theorem scanUrlsList_scoped (pu : String → Option URLRec)
    (domains seen : List String) (ms : List String) :
    ∀ f ∈ (scanUrlsList pu domains seen ms).2, scopedFinding domains f := by
  induction ms generalizing seen with
  | nil => simp [scanUrlsList]
  | cons m ms ih =>
    unfold scanUrlsList
    cases hp : pu m with
    | none => exact ih seen
    | some u =>
      simp only [List.mem_append]
      intro f hf
      rcases hf with h | h
      · exact handleURL_scoped domains seen u f h
      · exact ih _ f h

theorem scanUrlsList_no_path (pu : String → Option URLRec)
    (domains seen : List String) (ms : List String) :
    ∀ f ∈ (scanUrlsList pu domains seen ms).2, ∀ s p,
      f ≠ Finding.path s p := by
  induction ms generalizing seen with
  | nil => simp [scanUrlsList]
  | cons m ms ih =>
    unfold scanUrlsList
    cases hp : pu m with
    | none => exact ih seen
    | some u =>
      simp only [List.mem_append]
      intro f hf
      rcases hf with h | h
      · exact handleURL_no_path domains seen u f h
      · exact ih _ f h

theorem lazyConsume_lookahead {s cs r : List Char}
    (h : lazyConsume s = some (cs, r)) : lookaheadOk r = true := by
  induction s generalizing cs with
  | nil => simp [lazyConsume] at h
  | cons c rest ih =>
    unfold lazyConsume at h
    by_cases hd : isUrlDelim c
    · simp [hd] at h
    · by_cases hl : lookaheadOk rest
      · simp [hd, hl] at h
        rw [← h.2]
        exact hl
      · simp [hd, hl] at h
        cases hrec : lazyConsume rest with
        | none => rw [hrec] at h; simp at h
        | some pr =>
          rw [hrec] at h
          simp at h
          exact ih (by rw [hrec, ← h.2])

theorem lookaheadOk_nil : lookaheadOk [] = false := by decide

theorem matchUrlAt_lookahead {s m r : List Char}
    (h : matchUrlAt s = some (m, r)) : lookaheadOk r = true ∧ r ≠ [] := by
  unfold matchUrlAt at h
  cases hs : stripScheme s with
  | none => rw [hs] at h; simp at h
  | some pr =>
    rw [hs] at h
    have h' : (match lazyConsume pr.2 with
        | none => none
        | some (body, r') => some (pr.1 ++ body, r')) = some (m, r) := h
    cases hl : lazyConsume pr.2 with
    | none => rw [hl] at h'; simp at h'
    | some pr2 =>
      rw [hl] at h'
      have he := Option.some.inj h'
      have hr : pr2.2 = r := congrArg Prod.snd he
      have hla := lazyConsume_lookahead hl
      rw [hr] at hla
      refine ⟨hla, ?_⟩
      intro hnil
      rw [hnil, lookaheadOk_nil] at hla
      exact Bool.false_ne_true hla

theorem pathLazy_sound {q : Char} {s cs r : List Char}
    (h : pathLazy q s = some (cs, r)) :
    s = cs ++ q :: r ∧ ∀ c ∈ cs, pathClass2 c = true := by
  induction s generalizing cs r with
  | nil => simp [pathLazy] at h
  | cons c rest ih =>
    unfold pathLazy at h
    by_cases hq : c == q
    · rw [if_pos hq] at h
      have he := Option.some.inj h
      have hcs : [] = cs := congrArg Prod.fst he
      have hr : rest = r := congrArg Prod.snd he
      subst hcs hr
      simp [beq_iff_eq.1 hq]
    · by_cases hc : pathClass2 c
      · rw [if_neg hq, if_pos hc] at h
        cases hrec : pathLazy q rest with
        | none => rw [hrec] at h; simp at h
        | some pr =>
          rw [hrec] at h
          have he := Option.some.inj h
          have hcs : c :: pr.1 = cs := congrArg Prod.fst he
          have hr : pr.2 = r := congrArg Prod.snd he
          obtain ⟨he2, hall⟩ := ih hrec
          subst hcs hr
          constructor
          · rw [List.cons_append, ← he2]
          · intro x hx
            rcases List.mem_cons.1 hx with h1 | h2
            · rw [h1]; exact hc
            · exact hall x h2
      · rw [if_neg hq, if_neg hc] at h
        exact absurd h (by simp)

theorem matchPathAt_sound {s m r : List Char}
    (h : matchPathAt s = some (m, r)) :
    ∃ q c2 cs, (q = '"' ∨ q = squote) ∧ m = '/' :: c2 :: cs ∧
      pathClass1 c2 = true ∧ (∀ c ∈ cs, pathClass2 c = true) ∧
      s = q :: (m ++ q :: r) := by
  match s, h with
  | [], h => simp [matchPathAt] at h
  | [q], h => simp [matchPathAt] at h
  | [q, c1], h => simp [matchPathAt] at h
  | q :: c1 :: c2 :: rest, h =>
    have h' : (if ((q == '"' || q == squote) && c1 == '/' && pathClass1 c2) then
        match pathLazy q rest with
        | some (cs, r') => some (c1 :: c2 :: cs, r')
        | none => none
      else none) = some (m, r) := h
    by_cases hcond : ((q == '"' || q == squote) && c1 == '/' && pathClass1 c2)
    · rw [if_pos hcond] at h'
      cases hl : pathLazy q rest with
      | none => rw [hl] at h'; simp at h'
      | some pr =>
        rw [hl] at h'
        have he := Option.some.inj h'
        have hm : c1 :: c2 :: pr.1 = m := congrArg Prod.fst he
        have hr : pr.2 = r := congrArg Prod.snd he
        obtain ⟨he2, hall⟩ := pathLazy_sound hl
        simp only [Bool.and_eq_true, Bool.or_eq_true, beq_iff_eq] at hcond
        obtain ⟨⟨hq, hc1⟩, hc2⟩ := hcond
        refine ⟨q, c2, pr.1, hq, ?_, hc2, hall, ?_⟩
        · rw [← hm, hc1]
        · rw [← hm, ← hr, hc1, he2]
          simp
    · rw [if_neg hcond] at h'
      simp at h'

theorem mem_extractPathsAux {fuel : Nat} {s m : List Char}
    (h : m ∈ extractPathsAux fuel s) :
    ∃ t r, matchPathAt t = some (m, r) := by
  induction fuel generalizing s with
  | zero => simp [extractPathsAux] at h
  | succ fuel ih =>
    cases s with
    | nil => simp [extractPathsAux] at h
    | cons c rest =>
      unfold extractPathsAux at h
      cases hm : matchPathAt (c :: rest) with
      | none =>
        rw [hm] at h
        exact ih h
      | some pr =>
        rw [hm] at h
        rcases List.mem_cons.1 h with h1 | h2
        · exact ⟨c :: rest, pr.2, by rw [h1]; exact hm⟩
        · exact ih h2

theorem handleResponse_scoped (pu : String → Option URLRec)
    (domains exts seen : List String) (ev : ResponseEvent) :
    ∀ f ∈ (handleResponse pu domains exts seen ev).2,
      scopedFinding domains f := by
  intro f hf
  unfold handleResponse at hf
  cases hp : pu ev.url with
  | none => simp [hp] at hf
  | some url =>
    rw [hp] at hf
    simp only at hf
    split at hf
    · rcases List.mem_append.1 hf with h | h
      · exact handleURL_scoped domains seen url f h
      · exact scanUrlsList_scoped pu domains _ _ f h
    · cases hb : ev.body with
      | none =>
        rw [hb] at hf
        rcases List.mem_append.1 hf with h | h
        · exact handleURL_scoped domains seen url f h
        · exact scanUrlsList_scoped pu domains _ _ f h
      | some text =>
        rw [hb] at hf
        simp only [List.append_assoc, List.mem_append] at hf
        rcases hf with h | h | h | h
        · exact handleURL_scoped domains seen url f h
        · exact scanUrlsList_scoped pu domains _ _ f h
        · exact scanUrlsList_scoped pu domains _ _ f h
        · rcases List.mem_map.1 h with ⟨p, _, hp2⟩
          rw [← hp2]
          trivial

theorem handleResponse_none (pu : String → Option URLRec)
    (domains exts seen : List String) (ev : ResponseEvent)
    (hp : pu ev.url = none) :
    handleResponse pu domains exts seen ev = (seen, []) := by
  unfold handleResponse
  rw [hp]

theorem handleResponse_skip (pu : String → Option URLRec)
    (domains exts seen : List String) (ev : ResponseEvent) (url : URLRec)
    (hp : pu ev.url = some url)
    (hg : (!(pathParseExt url.pathname == "") &&
        !(exts.contains (pathParseExt url.pathname))) = true) :
    handleResponse pu domains exts seen ev =
      ((scanUrls pu domains (handleURL domains seen url).1 ev.headers).1,
       (handleURL domains seen url).2 ++
         (scanUrls pu domains (handleURL domains seen url).1 ev.headers).2) := by
  unfold handleResponse
  rw [hp]
  simp only
  rw [if_pos hg]

theorem handleResponse_noBody (pu : String → Option URLRec)
    (domains exts seen : List String) (ev : ResponseEvent) (url : URLRec)
    (hp : pu ev.url = some url) (hb : ev.body = none) :
    handleResponse pu domains exts seen ev =
      ((scanUrls pu domains (handleURL domains seen url).1 ev.headers).1,
       (handleURL domains seen url).2 ++
         (scanUrls pu domains (handleURL domains seen url).1 ev.headers).2) := by
  unfold handleResponse
  rw [hp]
  simp only
  split
  · rfl
  · rw [hb]

theorem handleResponse_full (pu : String → Option URLRec)
    (domains exts seen : List String) (ev : ResponseEvent) (url : URLRec)
    (text : String)
    (hp : pu ev.url = some url)
    (hg : (!(pathParseExt url.pathname == "") &&
        !(exts.contains (pathParseExt url.pathname))) = false)
    (hb : ev.body = some text) :
    handleResponse pu domains exts seen ev =
      ((scanUrls pu domains
          (scanUrls pu domains (handleURL domains seen url).1 ev.headers).1
          text).1,
       (handleURL domains seen url).2 ++
         (scanUrls pu domains (handleURL domains seen url).1 ev.headers).2 ++
         (scanUrls pu domains
           (scanUrls pu domains (handleURL domains seen url).1 ev.headers).1
           text).2 ++
         (extractPaths text).map fun p => Finding.path url.href p) := by
  unfold handleResponse
  rw [hp]
  simp only
  rw [if_neg (by rw [hg]; exact Bool.false_ne_true), hb]

theorem runAux_step (pu : String → Option URLRec)
    (domains exts seen : List String) (events : List ResponseEvent) :
    StepOK seen (runAux pu domains exts seen events).1
      (runAux pu domains exts seen events).2 := by
  induction events generalizing seen with
  | nil => exact StepOK.refl seen
  | cons ev evs ih =>
    unfold runAux
    simp only
    exact (handleResponse_step pu domains exts seen ev).comp (ih _)

theorem nodup_count_le_one {l : List String} (hnd : l.Nodup) (a : String) :
    l.count a ≤ 1 := by
  induction l with
  | nil => simp
  | cons b l ih =>
    rw [List.count_cons]
    rcases List.nodup_cons.1 hnd with ⟨hb, hl⟩
    by_cases hab : b == a
    · have hba : b = a := beq_iff_eq.1 hab
      subst hba
      have h0 : l.count b = 0 := List.count_eq_zero.2 hb
      simp [h0, hab]
    · simp [hab, ih hl]

/-- A concrete in-scope parsed URL, used to exercise the aggregator. -/
def demoURL : URLRec :=
  { hostname := "a.example.com", href := "https://a.example.com/p",
    pathname := "/p" }

/-- A concrete platform URL parser recognising only `demoURL`. -/
def demoParse : String → Option URLRec := fun s =>
  if s == "https://a.example.com/p" then some demoURL else none

/-- A concrete response event for `demoURL`, with no header matches and
a failing body fetch. -/
def demoEvent : ResponseEvent :=
  { url := "https://a.example.com/p", headers := "", body := none }

/-- A concrete out-of-scope parsed URL. -/
def evilURL : URLRec :=
  { hostname := "evil.com", href := "https://evil.com/x", pathname := "/x" }

/-- A concrete platform URL parser recognising only `evilURL`. -/
def evilParse : String → Option URLRec := fun s =>
  if s == "https://evil.com/x" then some evilURL else none

/-- A response event from the out-of-scope host whose body contains one
quoted path literal. -/
def evilEvent : ResponseEvent :=
  { url := "https://evil.com/x", headers := "", body := some "\"/a\"" }

/-- C1 (amended): every `SubdomainFinding` and every `UrlFinding`
emitted by `handleResponse` satisfies the in-scope predicate at
emission time; `PathFinding`s carry no such guarantee (they are emitted
without a scope check, see the counterexample). -/
theorem c1_emitted_findings_in_scope (pu : String → Option URLRec)
    (domains exts seen : List String) (ev : ResponseEvent) :
    ∀ f ∈ (handleResponse pu domains exts seen ev).2,
      (∀ h, f = Finding.subdomain h → inScope domains h = true) ∧
      (∀ h href, f = Finding.url h href → inScope domains h = true) := by
  intro f hf
  have hsc := handleResponse_scoped pu domains exts seen ev f hf
  constructor
  · intro h he
    rw [he] at hsc
    exact hsc
  · intro h href he
    rw [he] at hsc
    exact hsc

/-- Witness for C1: a concrete in-scope emission. -/
theorem c1_emitted_findings_in_scope_witness :
    Finding.subdomain "a.example.com" ∈
      (handleResponse demoParse ["example.com"] [] [] demoEvent).2 ∧
    inScope ["example.com"] "a.example.com" = true :=
  ⟨by decide,
   (c1_emitted_findings_in_scope demoParse ["example.com"] [] [] demoEvent
      (Finding.subdomain "a.example.com") (by decide)).1
     "a.example.com" rfl⟩

/-- C1 counterexample: for a response event whose own URL is out of
scope (root domains `example.com`, response host `evil.com`), a
`PathFinding` is still emitted for a quoted path in the body — the
in-scope predicate does not hold for its hostname context at emission
time, refuting the claim that every emitted finding satisfies it. -/
theorem c1_counterexample :
    Finding.path "https://evil.com/x" "/a" ∈
      (handleResponse evilParse ["example.com"] [] [] evilEvent).2 ∧
    evilParse evilEvent.url = some evilURL ∧
    inScope ["example.com"] evilURL.hostname = false := by
  refine ⟨by decide, by decide, by decide⟩

/-- C2: `inScope` holds exactly when the hostname does not start with
`*.` and some root domain equals it or is a `.`-separated suffix of it;
matching is case-sensitive, and a partial-label suffix such as
`evilexample.com` against root `example.com` does not match. -/
theorem c2_inScope_iff :
    (∀ (h : String) (D : List String), D ≠ [] →
      (inScope D h = true ↔
        ¬ List.IsPrefix ['*', '.'] h.data ∧
          ∃ d ∈ D, h = d ∨ List.IsSuffix ('.' :: d.data) h.data)) ∧
    inScope ["example.com"] "evilexample.com" = false ∧
    inScope ["example.com"] "a.EXAMPLE.com" = false := by
  refine ⟨?_, by decide, by decide⟩
  intro h D _
  unfold inScope
  constructor
  · intro hsc
    rw [Bool.and_eq_true] at hsc
    obtain ⟨h1, h2⟩ := hsc
    obtain ⟨d, hd, hdd⟩ := List.any_eq_true.1 h2
    refine ⟨?_, d, hd, ?_⟩
    · intro hpre
      rw [Bool.not_eq_true'] at h1
      rw [← @List.isPrefixOf_iff_prefix Char _ _ ['*', '.'] h.data,
        h1] at hpre
      exact Bool.false_ne_true hpre
    · rw [Bool.or_eq_true] at hdd
      rcases hdd with he | hs
      · exact Or.inl (beq_iff_eq.1 he)
      · exact Or.inr (List.isSuffixOf_iff_suffix.1 hs)
  · rintro ⟨h1, d, hd, hdd⟩
    rw [Bool.and_eq_true]
    constructor
    · rw [Bool.not_eq_true']
      cases hb : List.isPrefixOf ['*', '.'] h.data
      · rfl
      · exact absurd (List.isPrefixOf_iff_prefix.1 hb) h1
    · rw [List.any_eq_true]
      refine ⟨d, hd, ?_⟩
      rw [Bool.or_eq_true]
      rcases hdd with he | hs
      · exact Or.inl (beq_iff_eq.2 he)
      · exact Or.inr (List.isSuffixOf_iff_suffix.2 hs)

/-- Witness for C2 at a concrete hostname and root-domain set. -/
theorem c2_inScope_iff_witness :
    (["example.com"] : List String) ≠ [] ∧
      (inScope ["example.com"] "a.example.com" = true ↔
        ¬ List.IsPrefix ['*', '.'] ("a.example.com" : String).data ∧
          ∃ d ∈ ["example.com"], "a.example.com" = d ∨
            List.IsSuffix ('.' :: d.data) ("a.example.com" : String).data) :=
  ⟨by decide, c2_inScope_iff.1 "a.example.com" ["example.com"] (by decide)⟩

/-- C3: in every run a `SubdomainFinding` for a given hostname is
emitted at most once; a hostname is in the final `uniqueDomains` set
iff its `SubdomainFinding` was emitted; and presenting the same
in-scope hostname as a candidate URL twice yields exactly one
`SubdomainFinding` and two `UrlFinding`s. -/
theorem c3_subdomain_dedup :
    (∀ (pu : String → Option URLRec) (domains exts : List String)
        (events : List ResponseEvent) (h : String),
      (runEvents pu domains exts events).2.count (Finding.subdomain h) ≤ 1 ∧
      (h ∈ (runEvents pu domains exts events).1 ↔
        Finding.subdomain h ∈ (runEvents pu domains exts events).2)) ∧
    runEvents demoParse ["example.com"] [".js"] [demoEvent, demoEvent] =
      (["a.example.com"],
       [Finding.subdomain "a.example.com",
        Finding.url "a.example.com" "https://a.example.com/p",
        Finding.url "a.example.com" "https://a.example.com/p"]) := by
  refine ⟨?_, by decide⟩
  intro pu domains exts events h
  obtain ⟨he, hnd, _⟩ := runAux_step pu domains exts [] events
  constructor
  · rw [← count_subHosts]
    exact nodup_count_le_one hnd h
  · have h1 : (runEvents pu domains exts events).1 =
        subHosts (runEvents pu domains exts events).2 := by
      simpa [runEvents] using he
    rw [h1, mem_subHosts]

/-- C4 counterexample: on the concatenated input the extractor does
not yield the two claimed matches — the trailing URL, which reaches the
end of the input with no following delimiter, is not extracted. -/
theorem c4_counterexample :
    extractUrls "http://a.com/xhttp://b.com/y" ≠
      ["http://a.com/x", "http://b.com/y"] := by decide

/-- C4 (amended): a URL match is split off at the start of the next
`http(s)://` occurrence and is never merged with it; on
`http://a.com/xhttp://b.com/y` exactly one match `http://a.com/x` is
produced (the trailing URL reaches the end of input without a
terminating delimiter or scheme occurrence, so it is not a match); with
a trailing delimiter both URLs are produced, split at the scheme
boundary. -/
theorem c4_url_split :
    extractUrls "http://a.com/xhttp://b.com/y" = ["http://a.com/x"] ∧
    extractUrls "http://a.com/xhttp://b.com/y " =
      ["http://a.com/x", "http://b.com/y"] ∧
    extractUrls "\"http://a.com/xhttp://b.com/y\"" =
      ["http://a.com/x", "http://b.com/y"] := by
  refine ⟨by decide, by decide, by decide⟩

/-- A concrete parsed URL whose path has extension `.png`. -/
def pngURL : URLRec :=
  { hostname := "a.example.com", href := "https://a.example.com/i.png",
    pathname := "/i.png" }

/-- A concrete platform URL parser recognising only `pngURL`. -/
def pngParse : String → Option URLRec := fun s =>
  if s == "https://a.example.com/i.png" then some pngURL else none

/-- A response event for `pngURL` whose body, were it scanned, would
produce a path finding. -/
def pngEvent : ResponseEvent :=
  { url := "https://a.example.com/i.png", headers := "",
    body := some "\"/secret\"" }

/-- A platform URL parser that always fails. -/
def noneParse : String → Option URLRec := fun _ => none

/-- C5: when the response path's extension is non-empty and not a
member of the extension filter, the body is not scanned — the event's
output is exactly the response's own URL findings followed by the
header-derived findings (so no body-derived `UrlFinding` and no
`PathFinding` is emitted), confirming that the body is fetched and
scanned only when the extension is empty, the filter is empty, or the
extension is a member. -/
theorem c5_extension_short_circuit (pu : String → Option URLRec)
    (domains exts seen : List String) (ev : ResponseEvent) (url : URLRec)
    (hp : pu ev.url = some url)
    (hne : pathParseExt url.pathname ≠ "")
    (hmem : exts.contains (pathParseExt url.pathname) = false) :
    handleResponse pu domains exts seen ev =
      ((scanUrls pu domains (handleURL domains seen url).1 ev.headers).1,
       (handleURL domains seen url).2 ++
         (scanUrls pu domains (handleURL domains seen url).1 ev.headers).2) ∧
    ∀ f ∈ (handleResponse pu domains exts seen ev).2, ∀ s p,
      f ≠ Finding.path s p := by
  have hg : (!(pathParseExt url.pathname == "") &&
      !(exts.contains (pathParseExt url.pathname))) = true := by
    rw [Bool.and_eq_true, Bool.not_eq_true', Bool.not_eq_true']
    exact ⟨beq_eq_false_iff_ne.2 hne, hmem⟩
  have heq := handleResponse_skip pu domains exts seen ev url hp hg
  refine ⟨heq, ?_⟩
  rw [heq]
  intro f hf
  rcases List.mem_append.1 hf with h | h
  · exact handleURL_no_path domains seen url f h
  · exact scanUrlsList_no_path pu domains _ _ f h

/-- Witness for C5: a `.png` response against filter `{.js}`; its own
URL finding is still emitted while the body path literal is not. -/
theorem c5_extension_short_circuit_witness :
    pngParse pngEvent.url = some pngURL ∧
    pathParseExt pngURL.pathname ≠ "" ∧
    ([".js"] : List String).contains (pathParseExt pngURL.pathname) = false ∧
    (handleResponse pngParse ["example.com"] [".js"] [] pngEvent =
      ((scanUrls pngParse ["example.com"]
          (handleURL ["example.com"] [] pngURL).1 pngEvent.headers).1,
       (handleURL ["example.com"] [] pngURL).2 ++
         (scanUrls pngParse ["example.com"]
           (handleURL ["example.com"] [] pngURL).1 pngEvent.headers).2) ∧
     ∀ f ∈ (handleResponse pngParse ["example.com"] [".js"] [] pngEvent).2,
       ∀ s p, f ≠ Finding.path s p) :=
  ⟨by decide, by decide, by decide,
   c5_extension_short_circuit pngParse ["example.com"] [".js"] [] pngEvent
     pngURL (by decide) (by decide) (by decide)⟩

/-- C6: path extraction requires the closing quote to be the same
character as the opening quote: the mismatched input `"/a/b'` yields no
match, the matched input `"/a/b"` yields exactly `/a/b`, and in general
every successful `regex.path` match attempt is opened and closed by
one and the same quote character. -/
theorem c6_quote_matching :
    extractPaths (String.mk ['"', '/', 'a', '/', 'b', squote]) = [] ∧
    extractPaths "\"/a/b\"" = ["/a/b"] ∧
    ∀ s m r : List Char, matchPathAt s = some (m, r) →
      ∃ q, (q = '"' ∨ q = squote) ∧ s = q :: (m ++ q :: r) := by
  refine ⟨by decide, by decide, ?_⟩
  intro s m r h
  obtain ⟨q, c2, cs, hq, _, _, _, hs⟩ := matchPathAt_sound h
  exact ⟨q, hq, hs⟩

/-- Witness for C6 at a concrete matched literal. -/
theorem c6_quote_matching_witness :
    matchPathAt ['"', '/', 'a', '"'] = some (['/', 'a'], []) ∧
      ∃ q, (q = '"' ∨ q = squote) ∧
        ['"', '/', 'a', '"'] = q :: (['/', 'a'] ++ q :: []) :=
  ⟨by decide, c6_quote_matching.2.2 ['"', '/', 'a', '"'] ['/', 'a'] []
    (by decide)⟩

/-- C7: when the response URL fails to parse, the event is aborted
atomically — the dedup state is unchanged and zero findings of any
kind are emitted — and a run containing the event continues exactly as
the run without it. -/
theorem c7_parse_failure_aborts (pu : String → Option URLRec)
    (domains exts seen : List String) (ev : ResponseEvent)
    (evs : List ResponseEvent) (hp : pu ev.url = none) :
    handleResponse pu domains exts seen ev = (seen, []) ∧
    runAux pu domains exts seen (ev :: evs) =
      runAux pu domains exts seen evs := by
  have h0 := handleResponse_none pu domains exts seen ev hp
  refine ⟨h0, ?_⟩
  simp only [runAux]
  rw [h0]
  simp

/-- Witness for C7 with an always-failing parser. -/
theorem c7_parse_failure_aborts_witness :
    noneParse demoEvent.url = none ∧
    (handleResponse noneParse ["example.com"] [] [] demoEvent = ([], []) ∧
     runAux noneParse ["example.com"] [] [] [demoEvent] =
       runAux noneParse ["example.com"] [] [] []) :=
  ⟨rfl, c7_parse_failure_aborts noneParse ["example.com"] [] [] demoEvent []
    rfl⟩

/-- C8: within one response event, findings are emitted in the order:
the response's own URL finding(s), then header-derived findings, then
body-derived URL findings (never path findings), then path findings. -/
theorem c8_emission_order (pu : String → Option URLRec)
    (domains exts seen : List String) (ev : ResponseEvent) (url : URLRec)
    (hp : pu ev.url = some url) :
    ∃ fBody fPath,
      (handleResponse pu domains exts seen ev).2 =
        (handleURL domains seen url).2 ++
          (scanUrls pu domains (handleURL domains seen url).1 ev.headers).2 ++
          fBody ++ fPath ∧
      (∀ f ∈ fBody, ∀ s p, f ≠ Finding.path s p) ∧
      (∀ f ∈ fPath, ∃ s p, f = Finding.path s p) := by
  cases hg : (!(pathParseExt url.pathname == "") &&
      !(exts.contains (pathParseExt url.pathname))) with
  | true =>
    refine ⟨[], [], ?_, by simp, by simp⟩
    rw [handleResponse_skip pu domains exts seen ev url hp hg]
    simp
  | false =>
    cases hb : ev.body with
    | none =>
      refine ⟨[], [], ?_, by simp, by simp⟩
      rw [handleResponse_noBody pu domains exts seen ev url hp hb]
      simp
    | some text =>
      refine ⟨(scanUrls pu domains
          (scanUrls pu domains (handleURL domains seen url).1 ev.headers).1
          text).2,
        (extractPaths text).map fun p => Finding.path url.href p,
        ?_, ?_, ?_⟩
      · rw [handleResponse_full pu domains exts seen ev url text hp hg hb]
      · exact scanUrlsList_no_path pu domains _ _
      · intro f hf
        rcases List.mem_map.1 hf with ⟨p, _, hp2⟩
        exact ⟨url.href, p, hp2.symm⟩

/-- Witness for C8 at a concrete event. -/
theorem c8_emission_order_witness :
    demoParse demoEvent.url = some demoURL ∧
    ∃ fBody fPath,
      (handleResponse demoParse ["example.com"] [] [] demoEvent).2 =
        (handleURL ["example.com"] [] demoURL).2 ++
          (scanUrls demoParse ["example.com"]
            (handleURL ["example.com"] [] demoURL).1 demoEvent.headers).2 ++
          fBody ++ fPath ∧
      (∀ f ∈ fBody, ∀ s p, f ≠ Finding.path s p) ∧
      (∀ f ∈ fPath, ∃ s p, f = Finding.path s p) :=
  ⟨by decide,
   c8_emission_order demoParse ["example.com"] [] [] demoEvent demoURL
     (by decide)⟩

/-- C9: the lookahead terminator of `regex.url` is mandatory — every
successful match attempt leaves a non-empty remainder on which the
lookahead holds (a delimiter character or another scheme occurrence),
so a URL occurrence running to the very end of the input is never
extracted. -/
theorem c9_terminator_mandatory :
    (∀ s m r : List Char, matchUrlAt s = some (m, r) →
      lookaheadOk r = true ∧ r ≠ []) ∧
    extractUrls "http://b.com/y" = [] := by
  refine ⟨?_, by decide⟩
  intro s m r h
  exact matchUrlAt_lookahead h

/-- Witness for C9 at a concrete match attempt. -/
theorem c9_terminator_mandatory_witness :
    matchUrlAt ("http://a.b ".data) =
      some ("http://a.b".data, [' ']) ∧
    (lookaheadOk [' '] = true ∧ ([' '] : List Char) ≠ []) :=
  ⟨by decide,
   c9_terminator_mandatory.1 ("http://a.b ".data) ("http://a.b".data) [' ']
     (by decide)⟩

/-- C10: every extracted path match begins with exactly one `/`, whose
following character is an allowed first character and never `/` (so
protocol-relative `//host/x` literals are not extracted), every later
character is an allowed path character, and no quote character occurs
in a match. -/
theorem c10_path_shape :
    (∀ (s m : String), m ∈ extractPaths s →
      ∃ c2 cs, m.data = '/' :: c2 :: cs ∧ pathClass1 c2 = true ∧
        c2 ≠ '/' ∧ (∀ c ∈ cs, pathClass2 c = true) ∧
        ∀ c ∈ m.data, ¬(c = '"' ∨ c = squote)) ∧
    extractPaths "\"//host/x\"" = [] := by
  refine ⟨?_, by decide⟩
  intro s m hm
  obtain ⟨l, hl, hml⟩ := List.mem_map.1 hm
  obtain ⟨t, r, ht⟩ := mem_extractPathsAux hl
  obtain ⟨q, c2, cs, _, hshape, hc2, hall, _⟩ := matchPathAt_sound ht
  have hdata : m.data = l := by rw [← hml]
  have hq1 : ∀ c : Char, pathClass1 c = true → ¬(c = '"' ∨ c = squote) := by
    intro c hc hcq
    rcases hcq with h1 | h1 <;>
      · subst h1
        exact absurd hc (by decide)
  have hq2 : ∀ c : Char, pathClass2 c = true → ¬(c = '"' ∨ c = squote) := by
    intro c hc hcq
    rcases hcq with h1 | h1 <;>
      · subst h1
        exact absurd hc (by decide)
  refine ⟨c2, cs, by rw [hdata, hshape], hc2, ?_, hall, ?_⟩
  · intro he
    rw [he] at hc2
    exact absurd hc2 (by decide)
  · intro c hcm
    rw [hdata, hshape] at hcm
    rcases List.mem_cons.1 hcm with h1 | h1
    · subst h1
      decide
    · rcases List.mem_cons.1 h1 with h2 | h2
      · rw [h2]
        exact hq1 c2 hc2
      · exact hq2 c (hall c h2)

/-- Witness for C10 at a concrete extracted path. -/
theorem c10_path_shape_witness :
    ("/a" : String) ∈ extractPaths "\"/a\"" ∧
      ∃ c2 cs, ("/a" : String).data = '/' :: c2 :: cs ∧
        pathClass1 c2 = true ∧ c2 ≠ '/' ∧
        (∀ c ∈ cs, pathClass2 c = true) ∧
        ∀ c ∈ ("/a" : String).data, ¬(c = '"' ∨ c = squote) :=
  ⟨by decide, c10_path_shape.1 "\"/a\"" "/a" (by decide)⟩

end Sourcery
